import Mathlib

/-!
Verification of jacobgit (src/jacobgit.py), a minimal content-addressed
version-control system.  The Python source is shallowly embedded: byte
strings become lists of naturals, the repository on-disk state becomes an
explicit record of path-keyed file maps, and each source function becomes
an executable Lean definition.  Fallible operations return Option or
Except.  Python str values are represented by their UTF-8 byte sequences
(UTF-8 encoding is injective, so string equality coincides with byte
equality, and Python code-point ordering on str coincides with bytewise
ordering of the encodings).
-/

/-- Byte strings: lists of naturals (each byte below 256). -/
abbrev Bytes := List Nat

/-- ASCII string literal converted to its byte sequence. -/
def ascii (s : String) : Bytes := s.toList.map Char.toNat

/-- Truncation to 32 bits. -/
def w32 (n : Nat) : Nat := n % 4294967296

/-- 32-bit left rotation. -/
def rotl (k x : Nat) : Nat := w32 ((x <<< k) ||| (x >>> (32 - k)))

/-- Big-endian 32-bit words from a byte sequence (groups of four). -/
def beWords : Bytes → List Nat
  | a :: b :: c :: d :: rest => (((a * 256 + b) * 256 + c) * 256 + d) :: beWords rest
  | _ => []

/-- Big-endian 4-byte encoding of a 32-bit value. -/
def be32 (n : Nat) : Bytes :=
  [n / 16777216 % 256, n / 65536 % 256, n / 256 % 256, n % 256]

/-- Big-endian 8-byte encoding of a 64-bit value. -/
def be64 (n : Nat) : Bytes :=
  [n / 72057594037927936 % 256, n / 281474976710656 % 256,
   n / 1099511627776 % 256, n / 4294967296 % 256] ++ be32 n

/-- SHA-1 message padding: append 0x80, zeros and the 64-bit bit length. -/
def sha1pad (m : Bytes) : Bytes :=
  m ++ [128] ++ List.replicate ((120 - (m.length + 1) % 64) % 64) 0 ++ be64 (8 * m.length)

/-- Split a byte sequence into 64-byte chunks (fuel-structural so the
kernel can evaluate it; the wrapper supplies sufficient fuel). -/
def chunks64Aux : Nat → Bytes → List Bytes
  | 0, _ => []
  | _, [] => []
  | fuel + 1, x :: xs => ((x :: xs).take 64) :: chunks64Aux fuel ((x :: xs).drop 64)

/-- Split a byte sequence into 64-byte chunks. -/
def chunks64 (l : Bytes) : List Bytes := chunks64Aux l.length l

/-- SHA-1 message-schedule extension, keeping the schedule reversed. -/
def sha1extend : Nat → List Nat → List Nat
  | 0, acc => acc
  | k + 1, acc =>
      sha1extend k
        (rotl 1 ((((acc.getD 2 0) ^^^ (acc.getD 7 0)) ^^^ (acc.getD 13 0)) ^^^ (acc.getD 15 0))
          :: acc)

/-- SHA-1 round function. -/
def sha1f (i b c d : Nat) : Nat :=
  if i < 20 then (b &&& c) ||| ((b ^^^ 4294967295) &&& d)
  else if i < 40 then (b ^^^ c) ^^^ d
  else if i < 60 then ((b &&& c) ||| (b &&& d)) ||| (c &&& d)
  else (b ^^^ c) ^^^ d

/-- SHA-1 round constants. -/
def sha1k (i : Nat) : Nat :=
  if i < 20 then 1518500249
  else if i < 40 then 1859775393
  else if i < 60 then 2400959708
  else 3395469782

/-- The 80 SHA-1 rounds over the message schedule. -/
def sha1rounds : Nat → Nat × Nat × Nat × Nat × Nat → List Nat → Nat × Nat × Nat × Nat × Nat
  | _, st, [] => st
  | i, (a, b, c, d, e), wd :: ws =>
      sha1rounds (i + 1) (w32 (rotl 5 a + sha1f i b c d + e + sha1k i + wd), a, rotl 30 b, c, d) ws

/-- SHA-1 compression of one 64-byte block. -/
def sha1block (h : Nat × Nat × Nat × Nat × Nat) (blk : Bytes) : Nat × Nat × Nat × Nat × Nat :=
  match h with
  | (h0, h1, h2, h3, h4) =>
    match sha1rounds 0 (h0, h1, h2, h3, h4) (sha1extend 64 (beWords blk).reverse).reverse with
    | (a, b, c, d, e) => (w32 (h0 + a), w32 (h1 + b), w32 (h2 + c), w32 (h3 + d), w32 (h4 + e))

/-- SHA-1 digest (20 bytes) of a byte sequence. -/
def sha1digest (m : Bytes) : Bytes :=
  match (chunks64 (sha1pad m)).foldl sha1block
      (1732584193, 4023233417, 2562383102, 271733878, 3285377520) with
  | (h0, h1, h2, h3, h4) => be32 h0 ++ be32 h1 ++ be32 h2 ++ be32 h3 ++ be32 h4

/-- Lowercase-hex character (as a byte) of a value below 16. -/
def hexDigitOfNat (n : Nat) : Nat := if n < 10 then 48 + n else 87 + n

/-- Lowercase hex encoding of a byte sequence (Python bytes.hex). -/
def hexOfBytes (bs : Bytes) : Bytes :=
  bs.foldr (fun b acc => hexDigitOfNat (b / 16) :: hexDigitOfNat (b % 16) :: acc) []

/-- Hexadecimal digest of SHA-1, as hashlib.sha1(x).hexdigest() returns. -/
def sha1hex (m : Bytes) : Bytes := hexOfBytes (sha1digest m)

set_option maxRecDepth 100000

/-- Association-list lookup over byte-string keys (first match), modelling
a path-keyed file system or a Python dict. -/
def alookup {α : Type} : List (Bytes × α) → Bytes → Option α
  | [], _ => none
  | (k, v) :: rest, key => if k = key then some v else alookup rest key

/-- Association-list update-or-append: replaces the value at an existing
key in place, else appends, matching Python dict assignment and writes of
a file at a path. -/
def aupsert {α : Type} : List (Bytes × α) → Bytes → α → List (Bytes × α)
  | [], key, val => [(key, val)]
  | (k, v) :: rest, key, val =>
      if k = key then (k, val) :: rest else (k, v) :: aupsert rest key val

/-- Python dict.update: upsert every pair of the second list in order. -/
def adictUpdate {α : Type} (d : List (Bytes × α)) (new : List (Bytes × α)) : List (Bytes × α) :=
  new.foldl (fun acc kv => aupsert acc kv.1 kv.2) d

/-- On-disk repository state: the files under the .jacobgit directory
(relative path to content) and the working-tree files (relative path to
content).  Directories are implicit. -/
structure Repo where
  git : List (Bytes × Bytes)
  work : List (Bytes × Bytes)
deriving Repr, DecidableEq

/-- Bytes stripped by Python str.strip: space, tab, newline, CR, VT, FF. -/
def isPySpace (b : Nat) : Bool := b = 32 || b = 9 || b = 10 || b = 13 || b = 11 || b = 12

/-- Python str.strip: drop leading and trailing whitespace. -/
def strip (l : Bytes) : Bytes :=
  ((l.dropWhile isPySpace).reverse.dropWhile isPySpace).reverse

/-- Python startswith on byte sequences. -/
def startsWith (p l : Bytes) : Bool := decide (l.take p.length = p)

/-- Python endswith on byte sequences. -/
def endsWithB (s l : Bytes) : Bool := decide (l.drop (l.length - s.length) = s)

/-- Decimal digits (ASCII) of a natural number, fuel-structural. -/
def decOfNatAux : Nat → Nat → Bytes → Bytes
  | 0, _, acc => acc
  | _, 0, acc => acc
  | fuel + 1, n + 1, acc => decOfNatAux fuel ((n + 1) / 10) ((48 + (n + 1) % 10) :: acc)

/-- Decimal ASCII representation of a natural number (Python str of int). -/
def decOfNat (n : Nat) : Bytes := if n = 0 then [48] else decOfNatAux n n []

/-- Octal digits (ASCII) of a natural number, fuel-structural. -/
def octOfNatAux : Nat → Nat → Bytes → Bytes
  | 0, _, acc => acc
  | _, 0, acc => acc
  | fuel + 1, n + 1, acc => octOfNatAux fuel ((n + 1) / 8) ((48 + (n + 1) % 8) :: acc)

/-- Octal ASCII representation of a natural number (Python format o). -/
def octOfNat (n : Nat) : Bytes := if n = 0 then [48] else octOfNatAux n n []

/-- Value of one ASCII hex digit; accepts both cases like Python int. -/
def hexVal (c : Nat) : Option Nat :=
  if 48 ≤ c ∧ c ≤ 57 then some (c - 48)
  else if 97 ≤ c ∧ c ≤ 102 then some (c - 87)
  else if 65 ≤ c ∧ c ≤ 70 then some (c - 55)
  else none

/-- Python bytes.fromhex: pairs of hex digits to bytes, skipping spaces
between bytes; any other input fails (ValueError). -/
def fromhex : Bytes → Option Bytes
  | [] => some []
  | a :: rest =>
      if a = 32 then fromhex rest
      else
        match rest with
        | [] => none
        | b :: rest2 =>
            match hexVal a, hexVal b, fromhex rest2 with
            | some va, some vb, some tail => some ((16 * va + vb) :: tail)
            | _, _, _ => none

/-- Split at the first occurrence of a byte: Python split(sep, 1) when it
finds the separator; none when the separator is absent. -/
def splitOnceAt (b : Nat) : Bytes → Option (Bytes × Bytes)
  | [] => none
  | x :: xs =>
      if x = b then some ([], xs)
      else
        match splitOnceAt b xs with
        | none => none
        | some (p, q) => some (x :: p, q)

/-- Python split(sep, 1)[0]: the part before the first separator, or the
whole sequence when the separator is absent. -/
def headSplit (b : Nat) (l : Bytes) : Bytes :=
  match splitOnceAt b l with
  | none => l
  | some (p, _) => p

/-- Python split(sep, 1)[1]: the part after the first separator; fails
(IndexError) when the separator is absent. -/
def tailSplit (b : Nat) (l : Bytes) : Option Bytes :=
  (splitOnceAt b l).map (fun pq => pq.2)

/-- Strict octal value of ASCII digits, modelling int(s, 8) on the digit
strings this program produces; non-digit input fails. -/
def parseOct : Bytes → Option Nat
  | [] => none
  | l => parseOctAux l 0
where
  parseOctAux : Bytes → Nat → Option Nat
  | [], acc => some acc
  | c :: rest, acc =>
      if 48 ≤ c ∧ c ≤ 55 then parseOctAux rest (8 * acc + (c - 48)) else none

/-- hash_blob from the source: SHA-1 hex of the framed blob payload. -/
def hash_blob (data : Bytes) : Bytes :=
  sha1hex (ascii "blob " ++ decOfNat data.length ++ [0] ++ data)

/-- write_object from the source: frame the payload with the type and
decimal length, store it under objects/(sha hex) when absent, and return
the sha hex together with the updated repository. -/
def write_object (r : Repo) (obj_type : Bytes) (data : Bytes) : Repo × Bytes :=
  let full := obj_type ++ [32] ++ decOfNat data.length ++ [0] ++ data
  let sha1 := sha1hex full
  let key := ascii "objects/" ++ sha1
  match alookup r.git key with
  | some _ => (r, sha1)
  | none => ({ r with git := aupsert r.git key full }, sha1)

/-- read_object from the source: read objects/(sha), split at the first
NUL, and take the header text before the first space as the type; a
missing file or a frame without NUL fails. -/
def read_object (r : Repo) (sha : Bytes) : Option (Bytes × Bytes) :=
  match alookup r.git (ascii "objects/" ++ sha) with
  | none => none
  | some full =>
      match splitOnceAt 0 full with
      | none => none
      | some (header, raw) => some (headSplit 32 header, raw)

/-- get_head_ref from the source: read and strip HEAD; with the prefix
"ref: " return the remainder, else (raw SHA or missing file) none. -/
def get_head_ref (r : Repo) : Option Bytes :=
  match alookup r.git (ascii "HEAD") with
  | none => none
  | some content =>
      let c := strip content
      if startsWith (ascii "ref: ") c then some (c.drop 5) else none

/-- The ref-given arm of read_ref: read .jacobgit/(ref) and strip, none
when the file is missing. -/
def read_ref_direct (r : Repo) (ref : Bytes) : Option Bytes :=
  match alookup r.git ref with
  | none => none
  | some c => some (strip c)

/-- The raw-SHA fallback of read_ref: stripped HEAD content when it does
not carry the "ref: " prefix. -/
def read_ref_rawhead (r : Repo) : Option Bytes :=
  match alookup r.git (ascii "HEAD") with
  | none => none
  | some content =>
      let c := strip content
      if startsWith (ascii "ref: ") c then none else some c

/-- read_ref with no ref argument: resolve through HEAD, recursing on a
truthy symbolic target, else fall back to the raw-SHA reading. -/
def read_ref_noref (r : Repo) : Option Bytes :=
  match get_head_ref r with
  | some h => if h = [] then read_ref_rawhead r else read_ref_direct r h
  | none => read_ref_rawhead r

/-- read_ref from the source; the Python default argument None and the
falsy empty string both take the HEAD-resolution path. -/
def read_ref (r : Repo) (ref : Option Bytes) : Option Bytes :=
  match ref with
  | some v => if v = [] then read_ref_noref r else read_ref_direct r v
  | none => read_ref_noref r

/-- In-memory index record, as the IndexEntry dataclass: the sha1 field
holds the 40-char hex digest text, as in the Python source. -/
structure IndexEntry where
  path : Bytes
  mode : Nat
  mtime : Nat
  sha1 : Bytes
deriving Repr, DecidableEq

/-- Little-endian value of a byte sequence. -/
def leVal (bs : Bytes) : Nat := bs.foldr (fun b acc => b + 256 * acc) 0

/-- struct.pack of an unsigned 16-bit little-endian value; out of range
fails (struct.error). -/
def pack_u16 (n : Nat) : Option Bytes :=
  if n < 65536 then some [n % 256, n / 256] else none

/-- struct.pack of an unsigned 32-bit little-endian value; out of range
fails (struct.error). -/
def pack_u32 (n : Nat) : Option Bytes :=
  if n < 4294967296 then some [n % 256, n / 256 % 256, n / 65536 % 256, n / 16777216] else none

/-- The entry-reading loop of read_index: count entries, each a 10-byte
header (path length u16, mode u32, mtime u32), 20 SHA bytes, then the
path bytes; any truncation fails. -/
def parseEntries : Nat → Bytes → Except String (List IndexEntry)
  | 0, _ => .ok []
  | count + 1, rem =>
      let hdr := rem.take 10
      if hdr.length < 10 then .error "Truncated index entry header"
      else
        let path_len := leVal (hdr.take 2)
        let mode := leVal ((hdr.drop 2).take 4)
        let mtime := leVal (hdr.drop 6)
        let rem1 := rem.drop 10
        let sha_bytes := rem1.take 20
        if sha_bytes.length < 20 then .error "Truncated SHA in index"
        else
          let rem2 := rem1.drop 20
          let path_bytes := rem2.take path_len
          if path_bytes.length < path_len then .error "Truncated path in index"
          else
            match parseEntries count (rem2.drop path_len) with
            | .ok es => .ok (⟨path_bytes, mode, mtime, hexOfBytes sha_bytes⟩ :: es)
            | .error e => .error e

/-- read_index applied to the content of an existing index file: a
12-byte header (magic JIDX, version, count) followed by the entries. -/
def read_index_bytes (d : Bytes) : Except String (List IndexEntry) :=
  let raw := d.take 12
  if raw.length < 12 then .error "Invalid index header"
  else
    let magic := raw.take 4
    let version := leVal ((raw.drop 4).take 4)
    let count := leVal ((raw.drop 4).drop 4)
    if magic ≠ ascii "JIDX" then .error "Bad index magic"
    else if version > 0 then .error "Unsupported index version"
    else parseEntries count (d.drop 12)

/-- read_index from the source: a missing index file yields the empty
list; otherwise the file content is decoded. -/
def read_index (r : Repo) : Except String (List IndexEntry) :=
  match alookup r.git (ascii "index") with
  | none => .ok []
  | some d => read_index_bytes d

/-- One record written by write_index: packed path length, mode, mtime,
the SHA bytes recovered from the hex text, then the path bytes. -/
def write_entry (e : IndexEntry) : Option Bytes :=
  match pack_u16 e.path.length, pack_u32 e.mode, pack_u32 e.mtime, fromhex e.sha1 with
  | some pl, some pm, some pt, some shab => some (pl ++ pm ++ pt ++ shab ++ e.path)
  | _, _, _, _ => none

/-- The records of write_index, concatenated in entry order. -/
def write_index_body : List IndexEntry → Option Bytes
  | [] => some []
  | e :: rest =>
      match write_entry e, write_index_body rest with
      | some b, some tail => some (b ++ tail)
      | _, _ => none

/-- write_index as the bytes it produces: magic, version 0, count, then
the records. -/
def write_index_bytes (entries : List IndexEntry) : Option Bytes :=
  match pack_u32 entries.length, write_index_body entries with
  | some cnt, some body => some (ascii "JIDX" ++ [0, 0, 0, 0] ++ cnt ++ body)
  | _, _ => none

/-- write_index from the source: truncate and rewrite the index file. -/
def write_index (r : Repo) (entries : List IndexEntry) : Option Repo :=
  (write_index_bytes entries).map (fun d => { r with git := aupsert r.git (ascii "index") d })

/-- Byte size of the serialized records of an entry list. -/
def indexEntriesSize (es : List IndexEntry) : Nat :=
  es.foldr (fun e a => 30 + e.path.length + a) 0

/-- Lowercase ASCII hex digit. -/
def isLowerHexDigit (c : Nat) : Bool :=
  decide ((48 ≤ c ∧ c ≤ 57) ∨ (97 ≤ c ∧ c ≤ 102))

/-- An index entry the spec data model admits: path length within u16,
mode and mtime within u32, and the sha1 text a 40-character lowercase
hex digest as the hexdigest calls of the source produce. -/
def ValidEntry (e : IndexEntry) : Prop :=
  e.path.length ≤ 65535 ∧ e.mode < 4294967296 ∧ e.mtime < 4294967296 ∧
  e.sha1.length = 40 ∧ (∀ c ∈ e.sha1, isLowerHexDigit c = true)

/-- Trailing occurrences of a byte removed (Python rstrip of one char). -/
def dropTrailing (b : Nat) (l : Bytes) : Bytes :=
  (l.reverse.dropWhile (fun x => x == b)).reverse

/-- os.path.split: head is everything up to the last slash with trailing
slashes stripped unless it is all slashes, tail is everything after. -/
def splitPath (p : Bytes) : Bytes × Bytes :=
  match p.reverse.findIdx? (fun x => x == 47) with
  | none => ([], p)
  | some k =>
      let i := p.length - k
      let head := p.take i
      (if head.all (fun x => x == 47) then head else dropTrailing 47 head, p.drop i)

/-- os.path.join of two components (POSIX rules). -/
def joinPath (a b : Bytes) : Bytes :=
  if startsWith [47] b then b
  else if a = [] ∨ a.getLast? = some 47 then a ++ b
  else a ++ [47] ++ b

/-- The grouped mapping of write_tree: directory to its (name, entry)
list, keys in first-seen order, lists in entry order. -/
abbrev TreeMap := List (Bytes × List (Bytes × IndexEntry))

/-- One defaultdict(list) append. -/
def tmAppend (tm : TreeMap) (key : Bytes) (pair : Bytes × IndexEntry) : TreeMap :=
  match alookup tm key with
  | some l => aupsert tm key (l ++ [pair])
  | none => tm ++ [(key, [pair])]

/-- The grouping pass of write_tree over the index entries. -/
def treeMapOf (entries : List IndexEntry) : TreeMap :=
  entries.foldl (fun tm e => tmAppend tm (splitPath e.path).1 ((splitPath e.path).2, e)) []

/-- Bytewise (equivalently, code-point) order on byte strings. -/
def bytesLe : Bytes → Bytes → Bool
  | [], _ => true
  | _ :: _, [] => false
  | a :: as, b :: bs => if a < b then true else if b < a then false else bytesLe as bs

/-- Insertion step of sorting the child lists by name. -/
def insertByName (x : Bytes × IndexEntry) : List (Bytes × IndexEntry) → List (Bytes × IndexEntry)
  | [] => [x]
  | y :: ys => if bytesLe x.1 y.1 then x :: y :: ys else y :: insertByName x ys

/-- Python sorted on the (name, entry) child list; names here are
pairwise distinct whenever Python would not raise on tie-breaking. -/
def sortPairs (l : List (Bytes × IndexEntry)) : List (Bytes × IndexEntry) :=
  l.foldr insertByName []

/-- One iteration of the build_tree child loop: a name that is itself a
grouped directory key becomes a subtree with octal mode 040000 through
the supplied recursive call, any other name takes the stored entry mode
and blob SHA. -/
def build_child_step (recur : Repo → Bytes → Option (Repo × Bytes)) (tm : TreeMap)
    (dir : Bytes) (r : Repo) (name : Bytes) (entry : IndexEntry) :
    Option (Repo × Nat × Bytes) :=
  match alookup tm (joinPath dir name) with
  | some _ =>
      match recur r (joinPath dir name) with
      | none => none
      | some rs => some (rs.1, 16384, rs.2)
  | none => some (r, entry.mode, entry.sha1)

def build_children (recur : Repo → Bytes → Option (Repo × Bytes)) (tm : TreeMap) (dir : Bytes) :
    Repo → List (Bytes × IndexEntry) → Option (Repo × List Bytes)
  | r, [] => some (r, [])
  | r, (name, entry) :: rest =>
      match build_child_step recur tm dir r name entry with
      | none => none
      | some (r1, mode, sha) =>
          match fromhex sha with
          | none => none
          | some shab =>
              match build_children recur tm dir r1 rest with
              | none => none
              | some (r2, items) =>
                  some (r2, (octOfNat mode ++ [32] ++ name ++ [0] ++ shab) :: items)

/-- build_tree of write_tree, fuel-structural on the recursion depth:
serialize the sorted children of a directory and store the tree object.
Fuel exhaustion models the unbounded Python recursion never returning. -/
def build_tree_fuel : Nat → TreeMap → Repo → Bytes → Option (Repo × Bytes)
  | 0, _, _, _ => none
  | fuel + 1, tm, r, dir =>
      match build_children (fun r2 d => build_tree_fuel fuel tm r2 d) tm dir r
          (sortPairs ((alookup tm dir).getD [])) with
      | none => none
      | some (r1, items) => some (write_object r1 (ascii "tree") items.flatten)

/-- write_tree from the source: group the index entries by directory and
build trees from the empty prefix.  One fuel unit per recursion level;
one more than the number of grouped keys is enough for every terminating
run, since each nested level enters a distinct grouped key. -/
def write_tree (r : Repo) : Option (Repo × Bytes) :=
  match read_index r with
  | .error _ => none
  | .ok entries =>
      let tm := treeMapOf entries
      build_tree_fuel (tm.length + 1) tm r []

/-- The payload scan of read_tree, fuel-structural on the remaining
bytes: each record is the text before the next NUL split at its first
space into octal mode and name, followed by the next 20 bytes as the raw
SHA (short at the very end exactly as Python slicing is); a record
without NUL or space, or with a non-octal mode, fails as Python does by
exception or by never terminating. -/
def parse_tree_aux : Nat → Bytes → Option (List (Nat × Bytes × Bytes))
  | _, [] => some []
  | 0, _ :: _ => none
  | fuel + 1, x :: xs =>
      match splitOnceAt 0 (x :: xs) with
      | none => none
      | some (entryB, rest0) =>
          match splitOnceAt 32 entryB with
          | none => none
          | some (modeS, name) =>
              match parseOct modeS with
              | none => none
              | some mode =>
                  match parse_tree_aux fuel (rest0.drop 20) with
                  | none => none
                  | some rest => some ((mode, name, hexOfBytes (rest0.take 20)) :: rest)

/-- The records of one tree payload, in order. -/
def parse_tree_data (data : Bytes) : Option (List (Nat × Bytes × Bytes)) :=
  parse_tree_aux data.length data

/-- The record walk of read_tree: a mode-040000 record recurses with the
extended prefix and merges the sub-mapping (dict update), any other
record maps the prefixed path to the record SHA. -/
def walk_entries (recur : Bytes → Bytes → Option (List (Bytes × Bytes))) (pre : Bytes) :
    List (Nat × Bytes × Bytes) → List (Bytes × Bytes) → Option (List (Bytes × Bytes))
  | [], acc => some acc
  | (mode, name, esha) :: rest, acc =>
      let path := if pre = [] then name else pre ++ [47] ++ name
      if mode = 16384 then
        match recur esha path with
        | none => none
        | some sub => walk_entries recur pre rest (adictUpdate acc sub)
      else walk_entries recur pre rest (aupsert acc path esha)

/-- read_tree from the source, fuel-structural on the recursion depth:
read the object (which must be a tree), scan its records and walk them.
Fuel exhaustion models the unbounded Python recursion never returning. -/
def read_tree_fuel : Nat → Repo → Bytes → Bytes → Option (List (Bytes × Bytes))
  | 0, _, _, _ => none
  | fuel + 1, r, sha, pre =>
      match read_object r sha with
      | none => none
      | some (ty, data) =>
          if ty = ascii "tree" then
            match parse_tree_data data with
            | none => none
            | some parsed => walk_entries (fun s p => read_tree_fuel fuel r s p) pre parsed []
          else none

/-- read_tree at the root prefix.  One fuel unit per nesting level; one
more than the object count is enough for every terminating run, since a
repeated SHA along one recursion path never terminates in Python. -/
def read_tree (r : Repo) (sha : Bytes) : Option (List (Bytes × Bytes)) :=
  read_tree_fuel (r.git.length + 1) r sha []

/-- join of the commit lines with newlines, Python str.join. -/
def joinNL : List Bytes → Bytes
  | [] => []
  | [x] => x
  | x :: y :: rest => x ++ [10] ++ joinNL (y :: rest)

/-- The commit payload assembled by cmd_commit: the tree line, the parent
line when the branch tip read back truthy, the author and committer
lines with the fixed identity and literal +0000, a blank line, then the
message; the lines are joined with newlines. -/
def commit_payload (tree_sha : Bytes) (parent_sha : Option Bytes) (ts : Nat)
    (message : Bytes) : Bytes :=
  let author := ascii "Jacob Chin <you@example.com> " ++ decOfNat ts ++ ascii " +0000"
  joinNL ([ascii "tree " ++ tree_sha]
    ++ (match parent_sha with
        | some p => if p = [] then [] else [ascii "parent " ++ p]
        | none => [])
    ++ [ascii "author " ++ author, ascii "committer " ++ author, [], message])

/-- The branch ref cmd_commit targets: the HEAD symbolic target when
truthy, else the default refs/heads/master. -/
def head_ref_or_master (r : Repo) : Bytes :=
  match get_head_ref r with
  | some h => if h = [] then ascii "refs/heads/master" else h
  | none => ascii "refs/heads/master"

/-- cmd_commit body (source lines 324-347; the message-lint decorator is
an out-of-scope collaborator per the spec): build the tree, resolve the
branch ref and its tip, write the commit object with the current
timestamp passed in as ts, then write the commit SHA into the ref file. -/
def cmd_commit (r : Repo) (message : Bytes) (ts : Nat) : Option (Repo × Bytes) :=
  match write_tree r with
  | none => none
  | some (r1, tree_sha) =>
      let head_ref := head_ref_or_master r1
      let parent_sha := read_ref r1 (some head_ref)
      let data := commit_payload tree_sha parent_sha ts message
      match write_object r1 (ascii "commit") data with
      | (r2, commit_sha) =>
          some ({ r2 with git := aupsert r2.git head_ref commit_sha }, commit_sha)

/-- The index dict of cmd_status: path to sha1 over the index entries. -/
def status_index (r : Repo) : Option (List (Bytes × Bytes)) :=
  match read_index r with
  | .error _ => none
  | .ok es => some (es.foldl (fun d e => aupsert d e.path e.sha1) [])

/-- The head_sha binding of cmd_status: the branch tip through a truthy
symbolic HEAD, else the Python None. -/
def status_head_sha (r : Repo) : Option Bytes :=
  match get_head_ref r with
  | some h => if h = [] then none else read_ref r (some h)
  | none => none

/-- The HEAD tree dict of cmd_status: a falsy head_sha gives the empty
dict; a commit peels to the SHA on its first line after the first space
(empty gives the empty dict); a tree is walked directly; any other
object kind gives the empty dict; read or walk failures escape. -/
def status_head_tree (r : Repo) : Option (List (Bytes × Bytes)) :=
  match status_head_sha r with
  | none => some []
  | some hs =>
      if hs = [] then some []
      else
        match read_object r hs with
        | none => none
        | some (ty, raw) =>
            if ty = ascii "commit" then
              match tailSplit 32 (headSplit 10 raw) with
              | none => none
              | some tree_sha => if tree_sha = [] then some [] else read_tree r tree_sha
            else if ty = ascii "tree" then read_tree r hs
            else some []

/-- Insertion step of sorting the working files. -/
def sortBytesInsert (x : Bytes) : List Bytes → List Bytes
  | [] => [x]
  | y :: ys => if bytesLe x y then x :: y :: ys else y :: sortBytesInsert x ys

/-- get_working_files from the source: the working-tree paths, sorted
(the .jacobgit and .git directories live outside the work map). -/
def get_working_files (r : Repo) : List Bytes :=
  (r.work.map Prod.fst).foldr sortBytesInsert []

/-- The classification loop of cmd_status over the working files: a path
in the index whose index SHA differs from the HEAD-tree value is staged;
a path in the index whose on-disk blob hash differs from its index SHA
is modified; a path not in the index is untracked. -/
def status_classify (r : Repo) (index head_tree : List (Bytes × Bytes)) :
    List Bytes → Option (List Bytes × List Bytes × List Bytes)
  | [] => some ([], [], [])
  | p :: rest =>
      match alookup r.work p with
      | none => none
      | some d =>
          match status_classify r index head_tree rest with
          | none => none
          | some (st, md, ut) =>
              match alookup index p with
              | some s =>
                  some ((if alookup head_tree p ≠ some s then p :: st else st),
                        (if hash_blob d ≠ s then p :: md else md),
                        ut)
              | none => some (st, md, p :: ut)

/-- cmd_status from the source, returning the three lists (staged,
modified, untracked) in working-file order; none models an escaping
exception ending the command. -/
def cmd_status (r : Repo) : Option (List Bytes × List Bytes × List Bytes) :=
  match status_index r with
  | none => none
  | some index =>
      match status_head_tree r with
      | none => none
      | some ht => status_classify r index ht (get_working_files r)

/-- Step 1 of cmd_checkout: the commit SHA the target resolves to — the
stripped branch-file content when refs/heads/(target) exists, else the
target itself taken as a raw SHA. -/
def checkout_commit_sha (r : Repo) (target : Bytes) : Bytes :=
  match alookup r.git (ascii "refs/heads/" ++ target) with
  | some c => strip c
  | none => target

/-- The new HEAD content cmd_checkout decides in step 1. -/
def checkout_new_head (r : Repo) (target : Bytes) : Bytes :=
  match alookup r.git (ascii "refs/heads/" ++ target) with
  | some _ => ascii "ref: refs/heads/" ++ target
  | none => target

/-- Step 5 of cmd_checkout: write each blob of the target map to the
working tree in map order; a missing blob object aborts mid-loop with
the partial state, as the Python exception would leave it. -/
def checkout_write (r : Repo) : List (Bytes × Bytes) → Bool × Repo
  | [] => (true, r)
  | (path, blob_sha) :: rest =>
      match read_object r blob_sha with
      | none => (false, r)
      | some td => checkout_write { r with work := aupsert r.work path td.2 } rest

/-- cmd_checkout from the source: resolve the target, require a commit
object, peel to its tree, build the flat file map, delete working files
absent from it, write every blob, then rewrite HEAD with a trailing
newline.  The Bool is false exactly when the command exits early, and
the returned repository is the state left behind at that point. -/
def cmd_checkout (r : Repo) (target : Bytes) : Bool × Repo :=
  let commit_sha := checkout_commit_sha r target
  match read_object r commit_sha with
  | none => (false, r)
  | some (ty, raw) =>
      if ty ≠ ascii "commit" then (false, r)
      else
        match tailSplit 32 (headSplit 10 raw) with
        | none => (false, r)
        | some tree_sha =>
            match read_tree r tree_sha with
            | none => (false, r)
            | some file_map =>
                let r1 := { r with work := r.work.filter (fun kv => (alookup file_map kv.1).isSome) }
                match checkout_write r1 file_map with
                | (false, r2) => (false, r2)
                | (true, r2) =>
                    (true, { r2 with
                      git := aupsert r2.git (ascii "HEAD") (checkout_new_head r target ++ [10]) })

/-- The branch-deletion arm of cmd_branch (source lines 564-576): fail
when refs/heads/(name) does not exist, fail when HEAD is symbolic to a
truthy ref that ends with the name, else remove the branch file.  The
Bool is false exactly when the command exits non-zero. -/
def cmd_branch_delete (r : Repo) (name : Bytes) : Bool × Repo :=
  let path := ascii "refs/heads/" ++ name
  match alookup r.git path with
  | none => (false, r)
  | some _ =>
      match get_head_ref r with
      | some current =>
          if current ≠ [] ∧ endsWithB name current then (false, r)
          else (true, { r with git := r.git.filter (fun kv => kv.1 != path) })
      | none => (true, { r with git := r.git.filter (fun kv => kv.1 != path) })

/-! Concrete repository states used by counterexamples and witnesses. -/

/-- A single staged entry in a nested directory, as cmd_add would stage
the file a/b. -/
def entryAB : IndexEntry := ⟨ascii "a/b", 33188, 0, ascii "aaaaaaaaaaaaaaaaaaaaaaaaaaaaaaaaaaaaaaaa"⟩

/-- Repository whose index stages exactly the nested path a/b. -/
def repoNested : Repo := ⟨[(ascii "index", (write_index_bytes [entryAB]).getD [])], []⟩

/-- Repository with a detached HEAD (raw 40-hex SHA) and an empty master
branch file, as cmd_init leaves master. -/
def repoDetached : Repo :=
  ⟨[(ascii "HEAD", ascii "aaaaaaaaaaaaaaaaaaaaaaaaaaaaaaaaaaaaaaaa"),
    (ascii "refs/heads/master", [])], []⟩

/-- Repository on branch master that also has a branch named ter, whose
name is a proper suffix of master. -/
def repoSuffix : Repo :=
  ⟨[(ascii "HEAD", ascii "ref: refs/heads/master\n"),
    (ascii "refs/heads/master", ascii "aaaaaaaaaaaaaaaaaaaaaaaaaaaaaaaaaaaaaaaa"),
    (ascii "refs/heads/ter", ascii "aaaaaaaaaaaaaaaaaaaaaaaaaaaaaaaaaaaaaaaa"),
    (ascii "refs/heads/dev", ascii "aaaaaaaaaaaaaaaaaaaaaaaaaaaaaaaaaaaaaaaa")], []⟩

/-- Repository on branch b whose branch file exists and is empty. -/
def repoEmptyRef : Repo :=
  ⟨[(ascii "HEAD", ascii "ref: refs/heads/b\n"), (ascii "refs/heads/b", [])], []⟩

/-- Repository with one working file and no object store, so any checkout
target fails to resolve. -/
def repoNoObjects : Repo :=
  ⟨[(ascii "HEAD", ascii "ref: refs/heads/master\n")], [(ascii "f.txt", ascii "hello")]⟩

/-! Helper lemmas about the embedding. -/

/-- Lookup after an upsert at the same key. -/
theorem alookup_aupsert_self {α : Type} (d : List (Bytes × α)) (k : Bytes) (v : α) :
    alookup (aupsert d k v) k = some v := by
  induction d with
  | nil => simp [aupsert, alookup]
  | cons kv rest ih =>
      by_cases h : kv.1 = k
      · simp [aupsert, h, alookup]
      · simp [aupsert, h, alookup, ih]

/-- Lookup after an upsert at a different key. -/
theorem alookup_aupsert_ne {α : Type} (d : List (Bytes × α)) (k key : Bytes) (v : α)
    (h : k ≠ key) : alookup (aupsert d k v) key = alookup d key := by
  induction d with
  | nil => simp [aupsert, alookup, h]
  | cons kv rest ih =>
      by_cases hk : kv.1 = k
      · simp [aupsert, hk, alookup, h]
      · simp [aupsert, hk, alookup, ih]

/-- splitOnceAt finds the separator right after a prefix free of it. -/
theorem splitOnceAt_append (b : Nat) (p q : Bytes) (h : b ∉ p) :
    splitOnceAt b (p ++ b :: q) = some (p, q) := by
  induction p with
  | nil => simp [splitOnceAt]
  | cons x xs ih =>
      have hx : x ≠ b := fun hxb => h (hxb ▸ List.mem_cons_self x xs)
      have hxs : b ∉ xs := fun hm => h (List.mem_cons_of_mem x hm)
      simp [splitOnceAt, Ne.symm hx, hx, ih hxs]

/-- Every byte of a decimal rendering is an ASCII digit. -/
theorem decOfNatAux_digits (fuel : Nat) :
    ∀ n acc, (∀ c ∈ acc, 48 ≤ c ∧ c ≤ 57) →
      ∀ c ∈ decOfNatAux fuel n acc, 48 ≤ c ∧ c ≤ 57 := by
  induction fuel with
  | zero => intro n acc hacc c hc; exact hacc c (by simpa [decOfNatAux] using hc)
  | succ f ih =>
      intro n acc hacc c hc
      match n with
      | 0 => exact hacc c (by simpa [decOfNatAux] using hc)
      | m + 1 =>
          refine ih ((m + 1) / 10) ((48 + (m + 1) % 10) :: acc) ?_ c (by simpa [decOfNatAux] using hc)
          intro d hd
          rcases List.mem_cons.mp hd with h1 | h2
          · subst h1
            have : (m + 1) % 10 < 10 := Nat.mod_lt _ (by omega)
            omega
          · exact hacc d h2

/-- Every byte of a decimal rendering is an ASCII digit. -/
theorem decOfNat_digits (n : Nat) : ∀ c ∈ decOfNat n, 48 ≤ c ∧ c ≤ 57 := by
  intro c hc
  by_cases h : n = 0
  · subst h
    simp [decOfNat] at hc
    omega
  · exact decOfNatAux_digits n n [] (by simp) c (by simpa [decOfNat, h] using hc)

/-- NUL does not occur in a decimal rendering. -/
theorem zero_not_mem_decOfNat (n : Nat) : 0 ∉ decOfNat n := by
  intro h
  have := decOfNat_digits n 0 h
  omega

/-- Space does not occur in a decimal rendering. -/
theorem space_not_mem_decOfNat (n : Nat) : 32 ∉ decOfNat n := by
  intro h
  have := decOfNat_digits n 32 h
  omega

/-- Lookup fails on a list filtered to exclude a key. -/
theorem alookup_filter_self {α : Type} (l : List (Bytes × α)) (key : Bytes) :
    alookup (l.filter (fun kv => kv.1 != key)) key = none := by
  induction l with
  | nil => simp [alookup]
  | cons kv rest ih =>
      simp only [bne] at ih ⊢
      by_cases h : kv.1 = key
      · simpa [List.filter_cons, h] using ih
      · simp [List.filter_cons, h, alookup, ih]

/-- Claim C5: blob round-trip.  For every byte string B, including the
empty string and strings containing NUL bytes, read_object applied to
the SHA returned by write_object of a blob returns the pair of the blob
type and B. -/
theorem C5_blob_roundtrip (B : Bytes) :
    read_object (write_object ⟨[], []⟩ (ascii "blob") B).1
      (write_object ⟨[], []⟩ (ascii "blob") B).2 = some (ascii "blob", B) := by
  have hz : (0 : Nat) ∉ ascii "blob" ++ 32 :: decOfNat B.length := by
    intro h
    rcases List.mem_append.mp h with h1 | h2
    · exact absurd h1 (by decide)
    · rcases List.mem_cons.mp h2 with h3 | h4
      · exact absurd h3 (by decide)
      · exact zero_not_mem_decOfNat _ h4
  have hsplit0 : splitOnceAt 0 (ascii "blob" ++ 32 :: (decOfNat B.length ++ 0 :: B))
      = some (ascii "blob" ++ 32 :: decOfNat B.length, B) := by
    simpa using splitOnceAt_append 0 (ascii "blob" ++ 32 :: decOfNat B.length) B hz
  have hsplit32 : splitOnceAt 32 (ascii "blob" ++ 32 :: decOfNat B.length)
      = some (ascii "blob", decOfNat B.length) :=
    splitOnceAt_append 32 (ascii "blob") (decOfNat B.length) (by decide)
  simp only [write_object, read_object, alookup, aupsert]
  simp [hsplit0, headSplit, hsplit32]

/-- Claim C9, counterexample: on a repository whose branch file
refs/heads/b exists with zero bytes, read_ref returns the empty string
— a value, not the Python None the claim asserts. -/
theorem C9_empty_ref_counterexample :
    read_ref repoEmptyRef (some (ascii "refs/heads/b")) = some [] ∧
    (some ([] : Bytes)) ≠ (none : Option Bytes) := by
  constructor
  · decide
  · decide

/-- Claim C9 as amended: for every ref path naming a branch file that
exists but contains zero bytes, read_ref on that ref returns the empty
string — a falsy value every caller treats as the no-commits-yet result
— rather than None. -/
theorem C9_empty_ref_returns_empty (r : Repo) (p : Bytes) (hp : p ≠ [])
    (h : alookup r.git p = some []) : read_ref r (some p) = some [] := by
  simp [read_ref, hp, read_ref_direct, h, strip]

/-- Witness for C9: the amended statement at the concrete repository. -/
theorem C9_empty_ref_returns_empty_witness :
    read_ref repoEmptyRef (some (ascii "refs/heads/b")) = some [] :=
  C9_empty_ref_returns_empty repoEmptyRef (ascii "refs/heads/b") (by decide) (by decide)

/-- Claim C3, counterexample: deleting the existing branch ter while
HEAD points at refs/heads/master fails and leaves the state in place,
although ter is not the branch HEAD points to — the source compares by
endswith, and master ends in ter. -/
theorem C3_branch_delete_counterexample :
    cmd_branch_delete repoSuffix (ascii "ter") = (false, repoSuffix) ∧
    alookup repoSuffix.git (ascii "refs/heads/ter") ≠ none ∧
    get_head_ref repoSuffix = some (ascii "refs/heads/master") := by
  refine ⟨by decide, by decide, by decide⟩

/-- Equation: branch deletion when the branch file is missing. -/
theorem cmd_branch_delete_eq_not_found (r : Repo) (name : Bytes)
    (hb : alookup r.git (ascii "refs/heads/" ++ name) = none) :
    cmd_branch_delete r name = (false, r) := by
  simp [cmd_branch_delete, hb]

/-- Equation: branch deletion refused through the endswith check. -/
theorem cmd_branch_delete_eq_current (r : Repo) (name c cur : Bytes)
    (hb : alookup r.git (ascii "refs/heads/" ++ name) = some c)
    (hh : get_head_ref r = some cur) (hc : cur ≠ [] ∧ endsWithB name cur = true) :
    cmd_branch_delete r name = (false, r) := by
  simp [cmd_branch_delete, hb, hh, hc.1, hc.2]

/-- Equation: branch deletion proceeding under a symbolic HEAD. -/
theorem cmd_branch_delete_eq_remove_sym (r : Repo) (name c cur : Bytes)
    (hb : alookup r.git (ascii "refs/heads/" ++ name) = some c)
    (hh : get_head_ref r = some cur) (hc : ¬(cur ≠ [] ∧ endsWithB name cur = true)) :
    cmd_branch_delete r name =
      (true, { r with git := r.git.filter (fun kv => kv.1 != ascii "refs/heads/" ++ name) }) := by
  simp only [cmd_branch_delete, hb, hh]
  rw [if_neg hc]

/-- Equation: branch deletion proceeding under a detached or absent HEAD. -/
theorem cmd_branch_delete_eq_remove_det (r : Repo) (name c : Bytes)
    (hb : alookup r.git (ascii "refs/heads/" ++ name) = some c)
    (hh : get_head_ref r = none) :
    cmd_branch_delete r name =
      (true, { r with git := r.git.filter (fun kv => kv.1 != ascii "refs/heads/" ++ name) }) := by
  simp [cmd_branch_delete, hb, hh]

/-- Claim C3 as amended: cmd_branch -d name fails if and only if the
branch file does not exist or HEAD is symbolic to a truthy ref whose
text ends with name (a suffix match, not an exact match); on failure the
state is untouched, and in every other case the branch file is deleted. -/
theorem C3_branch_delete_amended (r : Repo) (name : Bytes) :
    ((cmd_branch_delete r name).1 = false ↔
      alookup r.git (ascii "refs/heads/" ++ name) = none ∨
      ∃ cur, get_head_ref r = some cur ∧ cur ≠ [] ∧ endsWithB name cur = true) ∧
    ((cmd_branch_delete r name).1 = false → (cmd_branch_delete r name).2 = r) ∧
    ((cmd_branch_delete r name).1 = true →
      alookup (cmd_branch_delete r name).2.git (ascii "refs/heads/" ++ name) = none) := by
  cases hb : alookup r.git (ascii "refs/heads/" ++ name) with
  | none =>
      rw [cmd_branch_delete_eq_not_found r name hb]
      exact ⟨by simp, fun _ => rfl, fun h => Bool.noConfusion h⟩
  | some c =>
      cases hh : get_head_ref r with
      | none =>
          rw [cmd_branch_delete_eq_remove_det r name c hb hh]
          refine ⟨by simp, fun h => Bool.noConfusion h, fun _ => ?_⟩
          simpa using alookup_filter_self r.git (ascii "refs/heads/" ++ name)
      | some cur =>
          by_cases hc : cur ≠ [] ∧ endsWithB name cur = true
          · rw [cmd_branch_delete_eq_current r name c cur hb hh hc]
            exact ⟨⟨fun _ => Or.inr ⟨cur, rfl, hc.1, hc.2⟩, fun _ => rfl⟩, fun _ => rfl,
              fun h => Bool.noConfusion h⟩
          · rw [cmd_branch_delete_eq_remove_sym r name c cur hb hh hc]
            refine ⟨⟨fun h => Bool.noConfusion h, ?_⟩, fun h => Bool.noConfusion h,
              fun _ => ?_⟩
            · rintro (h | ⟨cur2, hcur2, hne, hend⟩)
              · exact Option.noConfusion h
              · have heq : cur = cur2 := Option.some.inj hcur2
                subst heq
                exact absurd ⟨hne, hend⟩ hc
            · simpa using alookup_filter_self r.git (ascii "refs/heads/" ++ name)

/-- Witness for C3: the amended equivalence applied at the concrete
repository, where deleting ter fails through the suffix match. -/
theorem C3_branch_delete_amended_witness :
    (cmd_branch_delete repoSuffix (ascii "ter")).1 = false :=
  (C3_branch_delete_amended repoSuffix (ascii "ter")).1.mpr
    (Or.inr ⟨ascii "refs/heads/master", by decide, by decide, by decide⟩)

/-- Claim C10: checkout atomicity on an invalid target.  Whenever the
object the target resolves to is missing from the object store or is
not of kind commit, cmd_checkout fails with the entry state untouched:
no working-tree file was deleted or written and HEAD was not rewritten. -/
theorem C10_checkout_failure_atomic (r : Repo) (target : Bytes)
    (h : read_object r (checkout_commit_sha r target) = none ∨
         ∃ ty raw, read_object r (checkout_commit_sha r target) = some (ty, raw) ∧
           ty ≠ ascii "commit") :
    cmd_checkout r target = (false, r) := by
  unfold cmd_checkout
  rcases h with h | ⟨ty, raw, hr, hty⟩
  · simp [h]
  · simp [hr, hty]

/-- Witness for C10: checking out an unresolvable SHA in a repository
with an empty object store leaves it exactly as it was. -/
theorem C10_checkout_failure_atomic_witness :
    cmd_checkout repoNoObjects (ascii "deadbeef") = (false, repoNoObjects) :=
  C10_checkout_failure_atomic repoNoObjects (ascii "deadbeef") (Or.inl (by decide))

/-- Claim C6: the commit payload is exactly the tree line, the parent
line present if and only if the branch tip resolved to a truthy SHA,
the author and committer lines ending in the literal +0000, a blank
line, then the message with no trailing newline after it. -/
theorem C6_commit_payload_format (tree_sha : Bytes) (parent_sha : Option Bytes) (ts : Nat)
    (message : Bytes) :
    commit_payload tree_sha parent_sha ts message =
      (ascii "tree " ++ tree_sha ++ [10])
      ++ (match parent_sha with
          | some p => if p = [] then [] else ascii "parent " ++ p ++ [10]
          | none => [])
      ++ (ascii "author Jacob Chin <you@example.com> " ++ decOfNat ts ++ ascii " +0000" ++ [10])
      ++ (ascii "committer Jacob Chin <you@example.com> " ++ decOfNat ts ++ ascii " +0000"
          ++ [10])
      ++ [10] ++ message := by
  have ha : ascii "author Jacob Chin <you@example.com> "
      = ascii "author " ++ ascii "Jacob Chin <you@example.com> " := by decide
  have hcm : ascii "committer Jacob Chin <you@example.com> "
      = ascii "committer " ++ ascii "Jacob Chin <you@example.com> " := by decide
  cases parent_sha with
  | none => simp [commit_payload, joinNL, ha, hcm]
  | some p =>
      by_cases hp : p = []
      · simp [commit_payload, joinNL, ha, hcm, hp]
      · simp [commit_payload, joinNL, ha, hcm, hp]

/-- Unfolding of the record size over a cons. -/
theorem indexEntriesSize_cons (e : IndexEntry) (es : List IndexEntry) :
    indexEntriesSize (e :: es) = 30 + e.path.length + indexEntriesSize es := rfl

/-- The entry loop succeeds only when every declared entry is complete:
the count matches and the input covers every record. -/
theorem parseEntries_ok_size :
    ∀ (count : Nat) (rem : Bytes) (es : List IndexEntry), parseEntries count rem = .ok es →
      es.length = count ∧ indexEntriesSize es ≤ rem.length := by
  intro count
  induction count with
  | zero =>
      intro rem es h
      simp [parseEntries] at h
      subst h
      simp [indexEntriesSize]
  | succ n ih =>
      intro rem es h
      simp only [parseEntries] at h
      by_cases h10 : (List.take 10 rem).length < 10
      · rw [if_pos h10] at h
        exact absurd h (by simp)
      · rw [if_neg h10] at h
        by_cases h20 : (List.take 20 (List.drop 10 rem)).length < 20
        · rw [if_pos h20] at h
          exact absurd h (by simp)
        · rw [if_neg h20] at h
          by_cases hp : (List.take (leVal (List.take 2 (List.take 10 rem)))
              (List.drop 20 (List.drop 10 rem))).length < leVal (List.take 2 (List.take 10 rem))
          · rw [if_pos hp] at h
            exact absurd h (by simp)
          · rw [if_neg hp] at h
            cases htail : parseEntries n (List.drop (leVal (List.take 2 (List.take 10 rem)))
                (List.drop 20 (List.drop 10 rem))) with
            | error e =>
                rw [htail] at h
                exact absurd h (by simp)
            | ok tail =>
                rw [htail] at h
                simp only [Except.ok.injEq] at h
                subst h
                have htl := ih _ tail htail
                have e1 : 10 ≤ rem.length := by
                  have := List.length_take 10 rem
                  omega
                have e2 : (List.drop 10 rem).length = rem.length - 10 := List.length_drop 10 rem
                have e3 : 30 ≤ rem.length := by
                  have := List.length_take 20 (List.drop 10 rem)
                  omega
                have e4 : (List.drop 20 (List.drop 10 rem)).length = rem.length - 30 := by
                  rw [List.length_drop, e2]
                  omega
                have e5 : leVal (List.take 2 (List.take 10 rem)) ≤ rem.length - 30 := by
                  have := List.length_take (leVal (List.take 2 (List.take 10 rem)))
                    (List.drop 20 (List.drop 10 rem))
                  omega
                have e6 : (List.take (leVal (List.take 2 (List.take 10 rem)))
                    (List.drop 20 (List.drop 10 rem))).length
                    = leVal (List.take 2 (List.take 10 rem)) := by
                  rw [List.length_take, e4]
                  omega
                have h5 := htl.2
                rw [List.length_drop, e4] at h5
                refine ⟨by simp [htl.1], ?_⟩
                simp only [indexEntriesSize_cons, e6]
                omega

/-- Claim C8: read_index error behaviour.  A missing index file yields
the empty list; a header shorter than 12 bytes, a magic other than JIDX,
or a version above 0 fails with the corresponding error; and success
requires the magic, version 0, a count equal to the number of returned
entries and enough bytes for every declared record, so any truncation of
an entry header, SHA or path fails. -/
theorem C8_read_index_errors :
    (∀ r : Repo, alookup r.git (ascii "index") = none → read_index r = Except.ok []) ∧
    (∀ d : Bytes, d.length < 12 → read_index_bytes d = Except.error "Invalid index header") ∧
    (∀ d : Bytes, 12 ≤ d.length → List.take 4 d ≠ ascii "JIDX" →
      read_index_bytes d = Except.error "Bad index magic") ∧
    (∀ d : Bytes, 12 ≤ d.length → List.take 4 d = ascii "JIDX" →
      0 < leVal (List.take 4 (List.drop 4 d)) →
      read_index_bytes d = Except.error "Unsupported index version") ∧
    (∀ (d : Bytes) (es : List IndexEntry), read_index_bytes d = Except.ok es →
      List.take 4 d = ascii "JIDX" ∧ leVal (List.take 4 (List.drop 4 d)) = 0 ∧
      leVal (List.take 4 (List.drop 8 d)) = es.length ∧
      12 + indexEntriesSize es ≤ d.length) := by
  have hm4 : ∀ d : Bytes, (List.take 12 d).take 4 = List.take 4 d := by
    intro d
    rw [List.take_take]
    norm_num
  have hv4 : ∀ d : Bytes, ((List.take 12 d).drop 4).take 4 = List.take 4 (List.drop 4 d) := by
    intro d
    rw [List.drop_take, List.take_take]
    norm_num
  have hc4 : ∀ d : Bytes, ((List.take 12 d).drop 4).drop 4 = List.take 4 (List.drop 8 d) := by
    intro d
    rw [List.drop_take, List.drop_take, List.drop_drop]
  refine ⟨?_, ?_, ?_, ?_, ?_⟩
  · intro r h
    simp [read_index, h]
  · intro d h
    have hlen : (List.take 12 d).length < 12 := by
      rw [List.length_take]
      omega
    simp only [read_index_bytes]
    rw [if_pos hlen]
  · intro d h12 hm
    have hlen : ¬(List.take 12 d).length < 12 := by
      rw [List.length_take]
      omega
    simp only [read_index_bytes]
    rw [if_neg hlen, hm4 d]
    rw [if_pos hm]
  · intro d h12 hm hv
    have hlen : ¬(List.take 12 d).length < 12 := by
      rw [List.length_take]
      omega
    simp only [read_index_bytes]
    rw [if_neg hlen, hm4 d, hv4 d]
    rw [if_neg (by simp [hm]), if_pos hv]
  · intro d es h
    simp only [read_index_bytes] at h
    by_cases hlen : (List.take 12 d).length < 12
    · rw [if_pos hlen] at h
      exact absurd h (by simp)
    · rw [if_neg hlen] at h
      rw [hm4 d, hv4 d, hc4 d] at h
      by_cases hm : List.take 4 d ≠ ascii "JIDX"
      · rw [if_pos hm] at h
        exact absurd h (by simp)
      · rw [if_neg hm] at h
        by_cases hv : leVal (List.take 4 (List.drop 4 d)) > 0
        · rw [if_pos hv] at h
          exact absurd h (by simp)
        · rw [if_neg hv] at h
          have hsz := parseEntries_ok_size _ _ _ h
          have h12 : 12 ≤ d.length := by
            rw [List.length_take] at hlen
            omega
          have hdl : (List.drop 12 d).length = d.length - 12 := List.length_drop 12 d
          refine ⟨not_not.mp hm, by omega, hsz.1.symm, ?_⟩
          have := hsz.2
          omega

/-- A lowercase hex digit decodes, below 16, and re-encodes to itself. -/
theorem hexVal_lower (c : Nat) (h : isLowerHexDigit c = true) :
    ∃ v, hexVal c = some v ∧ v < 16 ∧ hexDigitOfNat v = c := by
  have h2 : (48 ≤ c ∧ c ≤ 57) ∨ (97 ≤ c ∧ c ≤ 102) := of_decide_eq_true h
  rcases h2 with ⟨h1, h2⟩ | ⟨h1, h2⟩
  · refine ⟨c - 48, ?_, by omega, ?_⟩
    · rw [hexVal, if_pos ⟨h1, h2⟩]
    · rw [hexDigitOfNat, if_pos (by omega)]
      omega
  · refine ⟨c - 87, ?_, by omega, ?_⟩
    · rw [hexVal, if_neg (by omega), if_pos ⟨h1, h2⟩]
    · rw [hexDigitOfNat, if_neg (by omega)]
      omega

/-- Decoding a lowercase hex text of even length succeeds, halves the
length, and the decoded bytes re-encode to the original text. -/
theorem fromhex_lower :
    ∀ (n : Nat) (s : Bytes), s.length = 2 * n → (∀ c ∈ s, isLowerHexDigit c = true) →
      ∃ bs, fromhex s = some bs ∧ hexOfBytes bs = s ∧ bs.length = n := by
  intro n
  induction n with
  | zero =>
      intro s hlen _
      have : s = [] := List.length_eq_zero.mp (by omega)
      subst this
      exact ⟨[], rfl, rfl, rfl⟩
  | succ m ih =>
      intro s hlen hdig
      match s with
      | [] => simp at hlen
      | [a] => simp at hlen; omega
      | a :: b :: rest =>
          have ha := hexVal_lower a (hdig a (by simp))
          have hb := hexVal_lower b (hdig b (by simp))
          rcases ha with ⟨va, hva, hva16, hvac⟩
          rcases hb with ⟨vb, hvb, hvb16, hvbc⟩
          have hrest : rest.length = 2 * m := by
            simp at hlen
            omega
          rcases ih rest hrest (fun c hc => hdig c (by simp [hc])) with ⟨bs, hfx, hhex, hbsl⟩
          have hna : a ≠ 32 := by
            have := hdig a (by simp)
            simp [isLowerHexDigit] at this
            omega
          refine ⟨(16 * va + vb) :: bs, ?_, ?_, by simp [hbsl]⟩
          · rw [fromhex, if_neg hna]
            rw [hva, hvb, hfx]
          · have hdiv : (16 * va + vb) / 16 = va := by omega
            have hmod : (16 * va + vb) % 16 = vb := by omega
            simp only [hexOfBytes, List.foldr] at hhex ⊢
            rw [hdiv, hmod, hvac, hvbc, hhex]

/-- Little-endian u16 decodes its value. -/
theorem leVal_two (n : Nat) (h : n < 65536) : leVal [n % 256, n / 256] = n := by
  simp [leVal]
  omega

/-- Little-endian u32 decodes its value. -/
theorem leVal_four (n : Nat) (h : n < 4294967296) :
    leVal [n % 256, n / 256 % 256, n / 65536 % 256, n / 16777216] = n := by
  simp [leVal]
  omega

/-- A valid entry serializes: the record is a 10-byte header carrying the
path length, mode and mtime, then the 20 decoded SHA bytes, then the
path. -/
theorem write_entry_valid (e : IndexEntry) (h : ValidEntry e) :
    ∃ shab, fromhex e.sha1 = some shab ∧ shab.length = 20 ∧ hexOfBytes shab = e.sha1 ∧
      ∃ hdr, write_entry e = some (hdr ++ (shab ++ e.path)) ∧ hdr.length = 10 ∧
        leVal (hdr.take 2) = e.path.length ∧ leVal ((hdr.drop 2).take 4) = e.mode ∧
        leVal (hdr.drop 6) = e.mtime := by
  obtain ⟨h16, hm32, ht32, hlen40, hdig⟩ := h
  obtain ⟨shab, hfx, hhex, hbl⟩ := fromhex_lower 20 e.sha1 (by omega) hdig
  refine ⟨shab, hfx, hbl, hhex,
    [e.path.length % 256, e.path.length / 256,
     e.mode % 256, e.mode / 256 % 256, e.mode / 65536 % 256, e.mode / 16777216,
     e.mtime % 256, e.mtime / 256 % 256, e.mtime / 65536 % 256, e.mtime / 16777216],
    ?_, by simp, ?_, ?_, ?_⟩
  · have hp16 : pack_u16 e.path.length = some [e.path.length % 256, e.path.length / 256] := by
      rw [pack_u16, if_pos (by omega)]
    have hpm : pack_u32 e.mode
        = some [e.mode % 256, e.mode / 256 % 256, e.mode / 65536 % 256, e.mode / 16777216] := by
      rw [pack_u32, if_pos hm32]
    have hpt : pack_u32 e.mtime
        = some [e.mtime % 256, e.mtime / 256 % 256, e.mtime / 65536 % 256,
          e.mtime / 16777216] := by
      rw [pack_u32, if_pos ht32]
    simp only [write_entry, hp16, hpm, hpt, hfx]
    simp
  · simp only [List.take]
    exact leVal_two e.path.length (by omega)
  · simp only [List.drop, List.take]
    exact leVal_four e.mode hm32
  · simp only [List.drop]
    exact leVal_four e.mtime ht32

/-- Parsing one serialized record in front of further input yields the
entry back in front of whatever the rest parses to. -/
theorem parseEntries_append (e : IndexEntry) (b : Bytes) (h : ValidEntry e)
    (hb : write_entry e = some b) (count : Nat) (tail : Bytes) (es : List IndexEntry)
    (ht : parseEntries count tail = .ok es) :
    parseEntries (count + 1) (b ++ tail) = .ok (e :: es) := by
  obtain ⟨shab, hfx, hsl, hhex, hdr, hwe, hhl, hv2, hv4, hv6⟩ := write_entry_valid e h
  rw [hb] at hwe
  have hbeq : b = hdr ++ (shab ++ e.path) := Option.some.inj hwe
  subst hbeq
  have hrem : (hdr ++ (shab ++ e.path)) ++ tail = hdr ++ (shab ++ (e.path ++ tail)) := by
    simp
  rw [hrem]
  have e1 : List.take 10 (hdr ++ (shab ++ (e.path ++ tail))) = hdr := List.take_left' hhl
  have e2 : List.drop 10 (hdr ++ (shab ++ (e.path ++ tail))) = shab ++ (e.path ++ tail) :=
    List.drop_left' hhl
  have e3 : List.take 20 (shab ++ (e.path ++ tail)) = shab := List.take_left' hsl
  have e4 : List.drop 20 (shab ++ (e.path ++ tail)) = e.path ++ tail := List.drop_left' hsl
  have e5 : List.take e.path.length (e.path ++ tail) = e.path := List.take_left' rfl
  have e6 : List.drop e.path.length (e.path ++ tail) = tail := List.drop_left' rfl
  simp only [parseEntries, e1, e2, e3, e4]
  rw [if_neg (by omega)]
  rw [if_neg (by omega)]
  rw [hv2, e5, e6]
  rw [if_neg (by simp)]
  rw [ht, hv4, hv6, hhex]

/-- The record stream of a valid entry list parses back to the list. -/
theorem write_index_body_parse :
    ∀ es : List IndexEntry, (∀ e ∈ es, ValidEntry e) →
      ∃ body, write_index_body es = some body ∧ parseEntries es.length body = .ok es := by
  intro es
  induction es with
  | nil => intro _; exact ⟨[], rfl, rfl⟩
  | cons e rest ih =>
      intro hv
      obtain ⟨body, hwb, hpb⟩ := ih (fun x hx => hv x (by simp [hx]))
      obtain ⟨shab, hfx, hsl, hhex, hdr, hwe, hrest⟩ := write_entry_valid e (hv e (by simp))
      refine ⟨(hdr ++ (shab ++ e.path)) ++ body, ?_, ?_⟩
      · simp only [write_index_body, hwe, hwb]
      · exact parseEntries_append e _ (hv e (by simp)) hwe rest.length body rest hpb

/-- Claim C4: index round-trip.  For every entry list with pairwise
distinct paths whose fields fit the on-disk format (path length within
u16, mode and mtime within u32, sha1 a 40-char lowercase hex digest, as
every entry the program stages satisfies), read_index applied to the
repository write_index produced returns exactly the same list, paths,
modes, mtimes and sha1 texts preserved in order. -/
theorem C4_index_roundtrip (r : Repo) (es : List IndexEntry)
    (hdistinct : es.Pairwise (fun a b => a.path ≠ b.path))
    (hvalid : ∀ e ∈ es, ValidEntry e) (hcount : es.length < 4294967296) :
    ∃ r2, write_index r es = some r2 ∧ read_index r2 = .ok es := by
  obtain ⟨body, hwb, hpb⟩ := write_index_body_parse es hvalid
  have h4 : (ascii "JIDX").length = 4 := by decide
  have hcnt : pack_u32 es.length = some [es.length % 256, es.length / 256 % 256,
      es.length / 65536 % 256, es.length / 16777216] := by
    rw [pack_u32, if_pos hcount]
  have hwibe : write_index_bytes es = some ((ascii "JIDX" ++ [0, 0, 0, 0]
      ++ [es.length % 256, es.length / 256 % 256, es.length / 65536 % 256,
          es.length / 16777216]) ++ body) := by
    simp only [write_index_bytes, hcnt, hwb]
  refine ⟨{ r with git := aupsert r.git (ascii "index") ((ascii "JIDX" ++ [0, 0, 0, 0]
      ++ [es.length % 256, es.length / 256 % 256, es.length / 65536 % 256,
          es.length / 16777216]) ++ body) }, ?_, ?_⟩
  · rw [write_index, hwibe]
    rfl
  · rw [read_index]
    simp only [alookup_aupsert_self]
    have hh12 : (ascii "JIDX" ++ [0, 0, 0, 0] ++ [es.length % 256, es.length / 256 % 256,
        es.length / 65536 % 256, es.length / 16777216]).length = 12 := by
      simp [h4]
    have e1 : List.take 12 ((ascii "JIDX" ++ [0, 0, 0, 0] ++ [es.length % 256,
        es.length / 256 % 256, es.length / 65536 % 256, es.length / 16777216]) ++ body)
        = ascii "JIDX" ++ [0, 0, 0, 0] ++ [es.length % 256, es.length / 256 % 256,
          es.length / 65536 % 256, es.length / 16777216] := List.take_left' hh12
    have e2 : List.drop 12 ((ascii "JIDX" ++ [0, 0, 0, 0] ++ [es.length % 256,
        es.length / 256 % 256, es.length / 65536 % 256, es.length / 16777216]) ++ body)
        = body := List.drop_left' hh12
    have hassoc : ascii "JIDX" ++ [0, 0, 0, 0] ++ [es.length % 256, es.length / 256 % 256,
        es.length / 65536 % 256, es.length / 16777216]
        = ascii "JIDX" ++ ([0, 0, 0, 0] ++ [es.length % 256, es.length / 256 % 256,
          es.length / 65536 % 256, es.length / 16777216]) := by simp
    have e3 : (ascii "JIDX" ++ [0, 0, 0, 0] ++ [es.length % 256, es.length / 256 % 256,
        es.length / 65536 % 256, es.length / 16777216]).take 4 = ascii "JIDX" := by
      rw [hassoc]
      exact List.take_left' h4
    have e4 : (ascii "JIDX" ++ [0, 0, 0, 0] ++ [es.length % 256, es.length / 256 % 256,
        es.length / 65536 % 256, es.length / 16777216]).drop 4
        = [0, 0, 0, 0] ++ [es.length % 256, es.length / 256 % 256,
          es.length / 65536 % 256, es.length / 16777216] := by
      rw [hassoc]
      exact List.drop_left' h4
    simp only [read_index_bytes, e1, e2, e3, e4]
    rw [if_neg (by rw [hh12]; omega)]
    rw [if_neg (by simp)]
    have e5a : List.take 4 ([0, 0, 0, 0] ++ [es.length % 256, es.length / 256 % 256,
        es.length / 65536 % 256, es.length / 16777216]) = [0, 0, 0, 0] := List.take_left' rfl
    have e5 : leVal (List.take 4 ([0, 0, 0, 0] ++ [es.length % 256, es.length / 256 % 256,
        es.length / 65536 % 256, es.length / 16777216])) = 0 := by
      rw [e5a]
      decide
    have e6a : List.drop 4 ([0, 0, 0, 0] ++ [es.length % 256, es.length / 256 % 256,
        es.length / 65536 % 256, es.length / 16777216]) = [es.length % 256,
        es.length / 256 % 256, es.length / 65536 % 256, es.length / 16777216] :=
      List.drop_left' rfl
    have e6 : leVal (List.drop 4 ([0, 0, 0, 0] ++ [es.length % 256, es.length / 256 % 256,
        es.length / 65536 % 256, es.length / 16777216])) = es.length := by
      rw [e6a]
      exact leVal_four es.length hcount
    rw [if_neg (by rw [e5]; omega)]
    rw [e6]
    exact hpb

/-- Witness for C4: the round-trip at a concrete one-entry list. -/
theorem C4_index_roundtrip_witness :
    ∃ r2, write_index ⟨[], []⟩ [entryAB] = some r2 ∧ read_index r2 = Except.ok [entryAB] :=
  C4_index_roundtrip ⟨[], []⟩ [entryAB] (by simp)
    (by
      intro e he
      rw [List.mem_singleton] at he
      subst he
      exact ⟨by decide, by decide, by decide, by decide, by decide⟩)
    (by decide)

/-- Every path the classification loop reports came from its input. -/
theorem status_classify_subset (r : Repo) (idx ht : List (Bytes × Bytes)) :
    ∀ (ps st md ut : List Bytes), status_classify r idx ht ps = some (st, md, ut) →
      (∀ p ∈ st, p ∈ ps) ∧ (∀ p ∈ md, p ∈ ps) ∧ (∀ p ∈ ut, p ∈ ps) := by
  intro ps
  induction ps with
  | nil =>
      intro st md ut h
      simp only [status_classify, Option.some.injEq, Prod.mk.injEq] at h
      obtain ⟨h1, h2, h3⟩ := h
      subst h1
      subst h2
      subst h3
      exact ⟨by simp, by simp, by simp⟩
  | cons q rest ih =>
      intro st md ut h
      simp only [status_classify] at h
      cases hw : alookup r.work q with
      | none =>
          rw [hw] at h
          exact absurd h (by simp)
      | some d =>
          rw [hw] at h
          cases hc : status_classify r idx ht rest with
          | none =>
              rw [hc] at h
              exact absurd h (by simp)
          | some tup =>
              obtain ⟨st', md', ut'⟩ := tup
              rw [hc] at h
              obtain ⟨hsub1, hsub2, hsub3⟩ := ih st' md' ut' hc
              cases hqi : alookup idx q with
              | some s =>
                  rw [hqi] at h
                  simp only [Option.some.injEq, Prod.mk.injEq] at h
                  obtain ⟨h1, h2, h3⟩ := h
                  subst h1
                  subst h2
                  subst h3
                  refine ⟨?_, ?_, ?_⟩
                  · intro p hp
                    by_cases hcs : alookup ht q ≠ some s
                    · rw [if_pos hcs] at hp
                      rcases List.mem_cons.mp hp with h | h
                      · simp [h]
                      · simp [hsub1 p h]
                    · rw [if_neg hcs] at hp
                      simp [hsub1 p hp]
                  · intro p hp
                    by_cases hcm : hash_blob d ≠ s
                    · rw [if_pos hcm] at hp
                      rcases List.mem_cons.mp hp with h | h
                      · simp [h]
                      · simp [hsub2 p h]
                    · rw [if_neg hcm] at hp
                      simp [hsub2 p hp]
                  · intro p hp
                    simp [hsub3 p hp]
              | none =>
                  rw [hqi] at h
                  simp only [Option.some.injEq, Prod.mk.injEq] at h
                  obtain ⟨h1, h2, h3⟩ := h
                  subst h1
                  subst h2
                  subst h3
                  refine ⟨fun p hp => by simp [hsub1 p hp], fun p hp => by simp [hsub2 p hp], ?_⟩
                  intro p hp
                  rcases List.mem_cons.mp hp with h | h
                  · simp [h]
                  · simp [hsub3 p h]

/-- Membership in the three classification lists is exactly the per-path
condition of the source loop, for every path of the input list. -/
theorem status_classify_mem (r : Repo) (idx ht : List (Bytes × Bytes)) :
    ∀ (ps st md ut : List Bytes), status_classify r idx ht ps = some (st, md, ut) →
      ∀ p, p ∈ ps →
      ((p ∈ st ↔ ∃ sh, alookup idx p = some sh ∧ alookup ht p ≠ some sh) ∧
       (p ∈ md ↔ ∃ sh d, alookup idx p = some sh ∧ alookup r.work p = some d ∧
         hash_blob d ≠ sh) ∧
       (p ∈ ut ↔ alookup idx p = none)) := by
  intro ps
  induction ps with
  | nil =>
      intro st md ut h p hp
      simp at hp
  | cons q rest ih =>
      intro st md ut h p hp
      simp only [status_classify] at h
      cases hw : alookup r.work q with
      | none =>
          rw [hw] at h
          exact absurd h (by simp)
      | some d =>
          rw [hw] at h
          cases hc : status_classify r idx ht rest with
          | none =>
              rw [hc] at h
              exact absurd h (by simp)
          | some tup =>
              obtain ⟨st', md', ut'⟩ := tup
              rw [hc] at h
              obtain ⟨hsub1, hsub2, hsub3⟩ := status_classify_subset r idx ht rest st' md' ut' hc
              cases hqi : alookup idx q with
              | some s =>
                  rw [hqi] at h
                  simp only [Option.some.injEq, Prod.mk.injEq] at h
                  obtain ⟨h1, h2, h3⟩ := h
                  subst h1
                  subst h2
                  subst h3
                  rcases List.mem_cons.mp hp with hpq | hpr
                  · subst hpq
                    refine ⟨?_, ?_, ?_⟩
                    · by_cases hcs : alookup ht p ≠ some s
                      · rw [if_pos hcs]
                        exact ⟨fun _ => ⟨s, hqi, hcs⟩, fun _ => List.mem_cons_self p st'⟩
                      · rw [if_neg hcs]
                        constructor
                        · intro hmem
                          exact (ih st' md' ut' hc p (hsub1 p hmem)).1.mp hmem
                        · rintro ⟨sh, hsh, hshne⟩
                          rw [hqi] at hsh
                          have hss : s = sh := Option.some.inj hsh
                          subst hss
                          exact absurd hshne hcs
                    · by_cases hcm : hash_blob d ≠ s
                      · rw [if_pos hcm]
                        exact ⟨fun _ => ⟨s, d, hqi, hw, hcm⟩, fun _ => List.mem_cons_self p md'⟩
                      · rw [if_neg hcm]
                        constructor
                        · intro hmem
                          exact (ih st' md' ut' hc p (hsub2 p hmem)).2.1.mp hmem
                        · rintro ⟨sh, dd, hsh, hdd, hne⟩
                          rw [hqi] at hsh
                          rw [hw] at hdd
                          have hss : s = sh := Option.some.inj hsh
                          have hdds : d = dd := Option.some.inj hdd
                          subst hss
                          subst hdds
                          exact absurd hne hcm
                    · constructor
                      · intro hmem
                        exact (ih st' md' ut' hc p (hsub3 p hmem)).2.2.mp hmem
                      · intro hnone
                        rw [hqi] at hnone
                        exact Option.noConfusion hnone
                  · have ihp := ih st' md' ut' hc p hpr
                    refine ⟨?_, ?_, ?_⟩
                    · by_cases hcs : alookup ht q ≠ some s
                      · rw [if_pos hcs]
                        constructor
                        · intro hmem
                          rcases List.mem_cons.mp hmem with hq | hm
                          · subst hq
                            exact ⟨s, hqi, hcs⟩
                          · exact ihp.1.mp hm
                        · intro hcond
                          exact List.mem_cons_of_mem q (ihp.1.mpr hcond)
                      · rw [if_neg hcs]
                        exact ihp.1
                    · by_cases hcm : hash_blob d ≠ s
                      · rw [if_pos hcm]
                        constructor
                        · intro hmem
                          rcases List.mem_cons.mp hmem with hq | hm
                          · subst hq
                            exact ⟨s, d, hqi, hw, hcm⟩
                          · exact ihp.2.1.mp hm
                        · intro hcond
                          exact List.mem_cons_of_mem q (ihp.2.1.mpr hcond)
                      · rw [if_neg hcm]
                        exact ihp.2.1
                    · exact ihp.2.2
              | none =>
                  rw [hqi] at h
                  simp only [Option.some.injEq, Prod.mk.injEq] at h
                  obtain ⟨h1, h2, h3⟩ := h
                  subst h1
                  subst h2
                  subst h3
                  rcases List.mem_cons.mp hp with hpq | hpr
                  · subst hpq
                    refine ⟨?_, ?_, ?_⟩
                    · constructor
                      · intro hmem
                        obtain ⟨sh, hsh, hx⟩ := (ih st' md' ut' hc p (hsub1 p hmem)).1.mp hmem
                        rw [hqi] at hsh
                        exact Option.noConfusion hsh
                      · rintro ⟨sh, hsh, hx⟩
                        rw [hqi] at hsh
                        exact Option.noConfusion hsh
                    · constructor
                      · intro hmem
                        obtain ⟨sh, dd, hsh, hx⟩ := (ih st' md' ut' hc p (hsub2 p hmem)).2.1.mp hmem
                        rw [hqi] at hsh
                        exact Option.noConfusion hsh
                      · rintro ⟨sh, dd, hsh, hx⟩
                        rw [hqi] at hsh
                        exact Option.noConfusion hsh
                    · exact ⟨fun _ => hqi, fun _ => List.mem_cons_self p ut'⟩
                  · have ihp := ih st' md' ut' hc p hpr
                    refine ⟨ihp.1, ihp.2.1, ?_⟩
                    constructor
                    · intro hmem
                      rcases List.mem_cons.mp hmem with hq | hm
                      · subst hq
                        exact hqi
                      · exact ihp.2.2.mp hm
                    · intro hnone
                      exact List.mem_cons_of_mem q (ihp.2.2.mpr hnone)

/-- Claim C7: status classification.  For every working-tree path p, in
any state where cmd_status completes, p is listed under staged iff it is
in the index dict with an index SHA different from its HEAD-tree value
(including when the HEAD tree lacks p), under modified iff it is in the
index and the blob hash of its on-disk bytes differs from its index SHA,
and under untracked iff it is not in the index; so a freshly added file,
absent from the HEAD tree and unchanged on disk, is staged and not
modified. -/
theorem C7_status_classification (r : Repo) (idx ht : List (Bytes × Bytes))
    (st md ut : List Bytes) (p : Bytes)
    (hidx : status_index r = some idx) (hht : status_head_tree r = some ht)
    (hs : cmd_status r = some (st, md, ut)) (hp : p ∈ get_working_files r) :
    (p ∈ st ↔ ∃ sh, alookup idx p = some sh ∧ alookup ht p ≠ some sh) ∧
    (p ∈ md ↔ ∃ sh d, alookup idx p = some sh ∧ alookup r.work p = some d ∧
      hash_blob d ≠ sh) ∧
    (p ∈ ut ↔ alookup idx p = none) := by
  simp only [cmd_status, hidx, hht] at hs
  exact status_classify_mem r idx ht (get_working_files r) st md ut hs p hp

/-- Witness for C7: the untracked equivalence at a concrete repository
with one working file and an empty index. -/
theorem C7_status_classification_witness :
    ascii "f.txt" ∈ [ascii "f.txt"] ↔
      alookup ([] : List (Bytes × Bytes)) (ascii "f.txt") = none :=
  (C7_status_classification repoNoObjects [] [] [] [] [ascii "f.txt"] (ascii "f.txt")
    (by decide) (by decide) (by decide) (by decide)).2.2

/-- A sequence starts with itself prefixed. -/
theorem startsWith_append (a b : Bytes) : startsWith a (a ++ b) = true := by
  simp [startsWith, List.take_left]

/-- write_object leaves every path outside objects/ unchanged. -/
theorem write_object_preserves (r : Repo) (ty data p : Bytes)
    (hp : startsWith (ascii "objects/") p = false) :
    alookup (write_object r ty data).1.git p = alookup r.git p := by
  have hne : ∀ s : Bytes, ascii "objects/" ++ s ≠ p := by
    intro s he
    rw [← he, startsWith_append] at hp
    exact Bool.noConfusion hp
  simp only [write_object]
  split
  · rfl
  · exact alookup_aupsert_ne _ _ _ _ (hne _)

/-- write_object never touches the working tree. -/
theorem write_object_work (r : Repo) (ty data : Bytes) :
    (write_object r ty data).1.work = r.work := by
  simp only [write_object]
  split <;> rfl

/-- One child step only changes the repository through the recursive
call. -/
theorem build_child_step_preserves (recur : Repo → Bytes → Option (Repo × Bytes))
    (hrec : ∀ r2 d r3 s, recur r2 d = some (r3, s) →
      ∀ p, startsWith (ascii "objects/") p = false →
        alookup r3.git p = alookup r2.git p ∧ r3.work = r2.work)
    (tm : TreeMap) (dir : Bytes) (r : Repo) (name : Bytes) (entry : IndexEntry)
    (r1 : Repo) (mode : Nat) (sha : Bytes)
    (h : build_child_step recur tm dir r name entry = some (r1, mode, sha)) :
    ∀ p, startsWith (ascii "objects/") p = false →
      alookup r1.git p = alookup r.git p ∧ r1.work = r.work := by
  intro p hp
  simp only [build_child_step] at h
  cases htm : alookup tm (joinPath dir name) with
  | some u =>
      simp only [htm] at h
      cases hrc : recur r (joinPath dir name) with
      | none =>
          simp only [hrc] at h
          exact absurd h (by simp)
      | some pr =>
          simp only [hrc, Option.some.injEq, Prod.mk.injEq] at h
          have hh := hrec r (joinPath dir name) pr.1 pr.2 (by rw [hrc]) p hp
          rw [h.1] at hh
          exact hh
  | none =>
      simp only [htm, Option.some.injEq, Prod.mk.injEq] at h
      rw [← h.1]
      exact ⟨rfl, rfl⟩

/-- The child loop of build_tree only writes under objects/ and never
touches the working tree, provided its recursive call does. -/
theorem build_children_preserves (recur : Repo → Bytes → Option (Repo × Bytes))
    (hrec : ∀ r2 d r3 s, recur r2 d = some (r3, s) →
      ∀ p, startsWith (ascii "objects/") p = false →
        alookup r3.git p = alookup r2.git p ∧ r3.work = r2.work)
    (tm : TreeMap) (dir : Bytes) :
    ∀ (cs : List (Bytes × IndexEntry)) (r r2 : Repo) (items : List Bytes),
      build_children recur tm dir r cs = some (r2, items) →
      ∀ p, startsWith (ascii "objects/") p = false →
        alookup r2.git p = alookup r.git p ∧ r2.work = r.work := by
  intro cs
  induction cs with
  | nil =>
      intro r r2 items h p hp
      simp only [build_children, Option.some.injEq, Prod.mk.injEq] at h
      rw [← h.1]
      exact ⟨rfl, rfl⟩
  | cons c rest ih =>
      obtain ⟨name, entry⟩ := c
      intro r r2 items h p hp
      simp only [build_children] at h
      cases hstep : build_child_step recur tm dir r name entry with
      | none =>
          rw [hstep] at h
          exact absurd h (by simp)
      | some tr =>
          obtain ⟨r1, mode, sha⟩ := tr
          simp only [hstep] at h
          have hr1 := build_child_step_preserves recur hrec tm dir r name entry r1 mode sha
            hstep p hp
          cases hfx : fromhex sha with
          | none =>
              rw [hfx] at h
              exact absurd h (by simp)
          | some shab =>
              rw [hfx] at h
              cases hbc : build_children recur tm dir r1 rest with
              | none =>
                  rw [hbc] at h
                  exact absurd h (by simp)
              | some pr2 =>
                  obtain ⟨r3, items2⟩ := pr2
                  rw [hbc] at h
                  simp only [Option.some.injEq, Prod.mk.injEq] at h
                  have hr3 := ih r1 r3 items2 hbc p hp
                  rw [← h.1]
                  exact ⟨hr3.1.trans hr1.1, hr3.2.trans hr1.2⟩

/-- build_tree only writes under objects/ and never touches the working
tree. -/
theorem build_tree_fuel_preserves :
    ∀ (fuel : Nat) (tm : TreeMap) (r : Repo) (dir : Bytes) (r2 : Repo) (sha : Bytes),
      build_tree_fuel fuel tm r dir = some (r2, sha) →
      ∀ p, startsWith (ascii "objects/") p = false →
        alookup r2.git p = alookup r.git p ∧ r2.work = r.work := by
  intro fuel
  induction fuel with
  | zero =>
      intro tm r dir r2 sha h
      exact absurd h (by simp [build_tree_fuel])
  | succ f ih =>
      intro tm r dir r2 sha h p hp
      simp only [build_tree_fuel] at h
      cases hbc : build_children (fun r2 d => build_tree_fuel f tm r2 d) tm dir r
          (sortPairs ((alookup tm dir).getD [])) with
      | none =>
          rw [hbc] at h
          exact absurd h (by simp)
      | some pr =>
          obtain ⟨r1, items⟩ := pr
          rw [hbc] at h
          simp only [Option.some.injEq] at h
          have hb := build_children_preserves _
            (fun r2 d r3 s hr => ih tm r2 d r3 s hr) tm dir _ r r1 items hbc p hp
          have h1 : (write_object r1 (ascii "tree") items.flatten).1 = r2 := by
            rw [h]
          rw [← h1]
          constructor
          · rw [write_object_preserves r1 _ _ p hp]
            exact hb.1
          · rw [write_object_work]
            exact hb.2

/-- write_tree only writes under objects/ and never touches the working
tree. -/
theorem write_tree_preserves (r r1 : Repo) (tsha : Bytes)
    (h : write_tree r = some (r1, tsha)) (p : Bytes)
    (hp : startsWith (ascii "objects/") p = false) :
    alookup r1.git p = alookup r.git p ∧ r1.work = r.work := by
  simp only [write_tree] at h
  cases hri : read_index r with
  | error e =>
      rw [hri] at h
      exact absurd h (by simp)
  | ok entries =>
      rw [hri] at h
      exact build_tree_fuel_preserves _ _ _ _ _ _ h p hp

/-- A path under refs/heads is not a path under objects. -/
theorem refs_heads_not_objects (p : Bytes)
    (hsw : startsWith (ascii "refs/heads/") p = true) :
    startsWith (ascii "objects/") p = false := by
  have hlen11 : (ascii "refs/heads/").length = 11 := by decide
  have h11 : List.take 11 p = ascii "refs/heads/" := by
    have := of_decide_eq_true hsw
    rw [hlen11] at this
    exact this
  have h8 : ¬(List.take 8 p = ascii "objects/") := by
    intro he
    have ht : List.take 8 p = List.take 8 (List.take 11 p) := by
      rw [List.take_take]
      norm_num
    rw [ht, h11] at he
    exact absurd he (by decide)
  have hlen8 : (ascii "objects/").length = 8 := by decide
  simp only [startsWith, hlen8]
  exact decide_eq_false h8

/-- Claim C2, counterexample: in a repository whose HEAD holds a raw
40-hex SHA (detached) and whose master branch file is empty, cmd_commit
writes the new commit SHA into refs/heads/master — a branch ref does
advance. -/
theorem C2_detached_commit_counterexample :
    (cmd_commit repoDetached (ascii "m") 0).map
        (fun pr => alookup pr.1.git (ascii "refs/heads/master"))
      = some (some (ascii "b5621a1fa4e0de52788029b58d55b99b24947078")) ∧
    alookup repoDetached.git (ascii "refs/heads/master") = some [] ∧
    ascii "b5621a1fa4e0de52788029b58d55b99b24947078" ≠ ([] : Bytes) :=
  ⟨by decide, by decide, by decide⟩

/-- Claim C2 as amended: when HEAD is detached, cmd_commit falls back to
the default ref refs/heads/master and writes the new commit SHA there —
so master does advance — while every other branch file under refs/heads
keeps its content. -/
theorem C2_detached_commit_amended (r : Repo) (msg : Bytes) (ts : Nat)
    (r2 : Repo) (csha c : Bytes)
    (hhead : alookup r.git (ascii "HEAD") = some c)
    (hdet : startsWith (ascii "ref: ") (strip c) = false)
    (hc : cmd_commit r msg ts = some (r2, csha)) :
    alookup r2.git (ascii "refs/heads/master") = some csha ∧
    (∀ p, startsWith (ascii "refs/heads/") p = true → p ≠ ascii "refs/heads/master" →
      alookup r2.git p = alookup r.git p) := by
  simp only [cmd_commit] at hc
  cases hwt : write_tree r with
  | none =>
      rw [hwt] at hc
      exact absurd hc (by simp)
  | some pr =>
      obtain ⟨r1, tsha⟩ := pr
      simp only [hwt] at hc
      have hH : alookup r1.git (ascii "HEAD") = some c := by
        rw [(write_tree_preserves r r1 tsha hwt (ascii "HEAD") (by decide)).1, hhead]
      have hgh : get_head_ref r1 = none := by
        simp [get_head_ref, hH, hdet]
      have hrm : head_ref_or_master r1 = ascii "refs/heads/master" := by
        simp [head_ref_or_master, hgh]
      rw [hrm] at hc
      cases hwo : write_object r1 (ascii "commit")
          (commit_payload tsha (read_ref r1 (some (ascii "refs/heads/master"))) ts msg) with
      | mk wr ws =>
          simp only [hwo, Option.some.injEq, Prod.mk.injEq] at hc
          obtain ⟨hr2, hcs⟩ := hc
          rw [← hr2, ← hcs]
          constructor
          · exact alookup_aupsert_self wr.git (ascii "refs/heads/master") ws
          · intro p hsw hne
            have hobj := refs_heads_not_objects p hsw
            rw [alookup_aupsert_ne wr.git (ascii "refs/heads/master") p ws
              (fun he => hne he.symm)]
            have hwr : alookup wr.git p = alookup r1.git p := by
              have := write_object_preserves r1 (ascii "commit")
                (commit_payload tsha (read_ref r1 (some (ascii "refs/heads/master"))) ts msg)
                p hobj
              rw [hwo] at this
              exact this
            rw [hwr]
            exact (write_tree_preserves r r1 tsha hwt p hobj).1

/-- Witness for C2: the amended statement at the concrete detached
repository. -/
theorem C2_detached_commit_amended_witness :
    alookup ((cmd_commit repoDetached (ascii "m") 0).getD (⟨[], []⟩, [])).1.git
        (ascii "refs/heads/master")
      = some ((cmd_commit repoDetached (ascii "m") 0).getD (⟨[], []⟩, [])).2 :=
  (C2_detached_commit_amended repoDetached (ascii "m") 0
    ((cmd_commit repoDetached (ascii "m") 0).getD (⟨[], []⟩, [])).1
    ((cmd_commit repoDetached (ascii "m") 0).getD (⟨[], []⟩, [])).2
    (ascii "aaaaaaaaaaaaaaaaaaaaaaaaaaaaaaaaaaaaaaaa")
    (by decide) (by decide) (by decide)).1

/-- Claim C1, failing-input evaluation: with the index staging exactly
the nested path a/b, write_tree emits an empty root tree (the grouping
pass never lists the subdirectory a as a child of the root), so walking
the result with read_tree yields the empty mapping instead of the
claimed mapping of a/b to its staged blob SHA. -/
theorem C1_write_tree_drops_nested :
    read_index repoNested = Except.ok [entryAB] ∧
    (write_tree repoNested).map (fun pr => read_tree pr.1 pr.2) = some (some []) ∧
    ([] : List (Bytes × Bytes)) ≠ [(ascii "a/b", entryAB.sha1)] :=
  ⟨by rfl, by decide, by decide⟩
